import Mathlib

/-!
# Verification of the kintai attendance-record core (src/main.rs)

A shallow embedding of the session-reconstruction state machine and the
interval/aggregation arithmetic of `src/main.rs`, together with theorems
settling the specification claims.

Modelling conventions:
* Rust `String` is Lean `String`; character-level work happens on `String.data`
  (`List Char`).  Byte-wise lexicographic comparison of UTF-8 Rust strings
  coincides with code-point-wise lexicographic comparison, which is what
  `listCharLeb`/`listCharLtb` implement.
* `chrono::DateTime<FixedOffset>` is the structure `TS` holding the wall-clock
  fields and the UTC offset in minutes, exactly the data `%H:%M` / `%Y/%m/%d`
  formatting and instant comparison consume.
* Panics (`unwrap`) are modelled by `Option`: a `none` result of a whole-run
  function models the aborted run.
* `f64` arithmetic on durations is modelled by `ℚ`; every concrete value in
  the claims (multiples of 1/60, of 1/100, and their products with integer
  rates) is exactly representable in `f64`, where the modelled operations are
  exact.
-/

/-- `LogEvent` from `src/main.rs` (lines 42-46): the raw timestamp string, the
event type string and the optional content captured by the reader regex. -/
structure LogEvent where
  ts : String
  ty : String
  content : Option String
deriving DecidableEq, Repr

/-- The component fields of a `chrono::DateTime<FixedOffset>` as far as the
program observes them: wall-clock date and time plus the UTC offset in
minutes (`offMin`). -/
structure TS where
  year : ℕ
  month : ℕ
  day : ℕ
  hour : ℕ
  minute : ℕ
  second : ℕ
  offMin : ℤ
deriving DecidableEq, Repr

/-- `ActiveSession` from `src/main.rs` (lines 48-52). -/
structure ActiveSession where
  start : TS
  breaks : List (TS × TS)
  last_break_start : Option TS
deriving DecidableEq, Repr

/-- `Session` from `src/main.rs` (lines 54-58): the emitted record keeps only
the formatted date string, the formatted `~`/`,`-joined time range string and
the content. -/
structure Session where
  date : String
  time_range : String
  content : Option String
deriving DecidableEq, Repr

/-! ## Character and number formatting helpers -/

/-- Decimal value of a digit character. -/
def digVal (c : Char) : ℕ := c.toNat - 48

/-- Zero-padding to (at least) two digits, as the `%H`/`%M`/`%m`/`%d` format
specifiers and `{mins:02}` produce. -/
def pad2 (n : ℕ) : List Char :=
  if n < 10 then '0' :: (Nat.repr n).data else (Nat.repr n).data

/-- Zero-padding to (at least) four digits, as `%Y` produces. -/
def pad4 (n : ℕ) : List Char :=
  (if n < 10 then ['0', '0', '0']
   else if n < 100 then ['0', '0']
   else if n < 1000 then ['0']
   else []) ++ (Nat.repr n).data

/-- `dt.format("%H:%M")` of a timestamp with the given hour and minute
(the `FixedOffset` datetime formats its own wall-clock fields). -/
def fmtHM (h m : ℕ) : List Char := pad2 h ++ ':' :: pad2 m

/-- `a.start.format("%Y/%m/%d")` (line 129). -/
def fmtDate (t : TS) : List Char :=
  pad4 t.year ++ '/' :: (pad2 t.month ++ '/' :: pad2 t.day)

/-- One `"{start}~{end}"` part of the time range (line 126). -/
def fmtInterval (p : TS × TS) : List Char :=
  fmtHM p.1.hour p.1.minute ++ '~' :: fmtHM p.2.hour p.2.minute

/-! ## RFC 3339 timestamp parsing

Models `chrono::DateTime::parse_from_rfc3339` on its input grammar
`YYYY-MM-DDTHH:MM:SS[.fff...](Z|±HH:MM)`: fixed-width decimal fields, a
calendar-validated date, an optional fractional-second part (at least one
digit, ignored at the sub-second precision the program never observes) and a
mandatory `Z` or signed offset.  The parsed offset is retained, never
normalised away. -/

def isLeapYear (y : ℕ) : Bool := y % 4 = 0 && (y % 100 ≠ 0 || y % 400 = 0)

def daysInMonth (y m : ℕ) : ℕ :=
  if m = 2 then (if isLeapYear y then 29 else 28)
  else if m = 4 ∨ m = 6 ∨ m = 9 ∨ m = 11 then 30
  else 31

/-- Skip an optional `.digits` fractional-second part. -/
def skipFrac : List Char → Option (List Char)
  | '.' :: r => if (r.takeWhile Char.isDigit) = [] then none
                else some (r.dropWhile Char.isDigit)
  | r => some r

/-- Parse the trailing offset: `Z`, `z`, or `±HH:MM`; result in minutes. -/
def parseOffset : List Char → Option ℤ
  | ['Z'] => some 0
  | ['z'] => some 0
  | [sg, o1, o2, ':', o3, o4] =>
    if (sg = '+' ∨ sg = '-') ∧ o1.isDigit ∧ o2.isDigit ∧ o3.isDigit ∧ o4.isDigit then
      let oh := 10 * digVal o1 + digVal o2
      let om := 10 * digVal o3 + digVal o4
      if oh ≤ 23 ∧ om ≤ 59 then
        some (if sg = '-' then -((60 * oh + om : ℕ) : ℤ) else ((60 * oh + om : ℕ) : ℤ))
      else none
    else none
  | _ => none

/-- `DateTime::parse_from_rfc3339` on the string's characters. -/
def parseTS (l : List Char) : Option TS :=
  match l with
  | y1 :: y2 :: y3 :: y4 :: '-' :: mo1 :: mo2 :: '-' :: d1 :: d2 :: 'T' ::
      h1 :: h2 :: ':' :: mi1 :: mi2 :: ':' :: s1 :: s2 :: rest =>
    if y1.isDigit ∧ y2.isDigit ∧ y3.isDigit ∧ y4.isDigit ∧ mo1.isDigit ∧ mo2.isDigit ∧
       d1.isDigit ∧ d2.isDigit ∧ h1.isDigit ∧ h2.isDigit ∧ mi1.isDigit ∧ mi2.isDigit ∧
       s1.isDigit ∧ s2.isDigit then
      let y := 1000 * digVal y1 + 100 * digVal y2 + 10 * digVal y3 + digVal y4
      let mo := 10 * digVal mo1 + digVal mo2
      let d := 10 * digVal d1 + digVal d2
      let h := 10 * digVal h1 + digVal h2
      let mi := 10 * digVal mi1 + digVal mi2
      let s := 10 * digVal s1 + digVal s2
      if 1 ≤ mo ∧ mo ≤ 12 ∧ 1 ≤ d ∧ d ≤ daysInMonth y mo ∧ h ≤ 23 ∧ mi ≤ 59 ∧ s ≤ 59 then
        match skipFrac rest with
        | none => none
        | some r2 =>
          match parseOffset r2 with
          | none => none
          | some off => some ⟨y, mo, d, h, mi, s, off⟩
      else none
    else none
  | _ => none

/-- Days since 1970-01-01 of a civil date (the standard days-from-civil
computation, with truncating division as in the reference formulation). -/
def daysFromCivil (y : ℤ) (m d : ℕ) : ℤ :=
  let y' := y - (if m ≤ 2 then 1 else 0)
  let era := (if 0 ≤ y' then y' else y' - 399).tdiv 400
  let yoe := y' - era * 400
  let mp : ℕ := (m + 9) % 12
  let doy : ℤ := (((153 * mp + 2) / 5 : ℕ) : ℤ) + (d : ℤ) - 1
  let doe := yoe * 365 + yoe.tdiv 4 - yoe.tdiv 100 + doy
  era * 146097 + doe - 719468

/-- The absolute point in time a timestamp denotes, in seconds since the
epoch: wall-clock seconds minus the UTC offset.  This is the order
`chrono` instants carry. -/
def instantOfTS (t : TS) : ℤ :=
  ((daysFromCivil t.year t.month t.day * 24 + t.hour) * 60 + t.minute) * 60
    + t.second - 60 * t.offMin

/-- The instant denoted by a raw timestamp string, when it parses. -/
def instantOfString (s : String) : Option ℤ :=
  (parseTS s.data).map instantOfTS

/-! ## Sorting (`events.sort_by_key(|e| e.ts.clone())`, line 88)

Rust's `sort_by_key` is a *stable* sort by the timestamp string under
byte-wise lexicographic order.  A stable sort's output is uniquely
determined by its comparison, so the stable insertion sort below computes
exactly the same list. -/

/-- Code-point lexicographic `≤` on character lists (= byte-wise UTF-8
lexicographic order on the corresponding Rust strings). -/
def listCharLeb : List Char → List Char → Bool
  | [], _ => true
  | _ :: _, [] => false
  | a :: as, b :: bs => if a = b then listCharLeb as bs else decide (a < b)

/-- Code-point lexicographic `<` on character lists. -/
def listCharLtb : List Char → List Char → Bool
  | [], [] => false
  | [], _ :: _ => true
  | _ :: _, [] => false
  | a :: as, b :: bs => if a = b then listCharLtb as bs else decide (a < b)

/-- Stable insertion of an event into an already sorted list: the new event
goes after every strictly smaller key and before equal keys it preceded in
the input. -/
def insertByTs (e : LogEvent) : List LogEvent → List LogEvent
  | [] => [e]
  | x :: t => if listCharLtb x.ts.data e.ts.data then x :: insertByTs e t else e :: x :: t

/-- The stable sort by the `ts` string. -/
def sortByTs : List LogEvent → List LogEvent
  | [] => []
  | e :: t => insertByTs e (sortByTs t)

/-! ## The session builder state machine (`build_sessions`, lines 87-139) -/

/-- The interval walk of the `finish` arm (lines 117-123): emit
`(cursor, break start)` and advance the cursor to the break end for each
closed break, then emit `(cursor, finish)`. -/
def walk (cursor fin : TS) : List (TS × TS) → List (TS × TS)
  | [] => [(cursor, fin)]
  | (bs, be) :: rest => (cursor, bs) :: walk be fin rest

/-- Closing an active session on `finish` (lines 114-132): format the walked
intervals, join them with `,` and attach the finish event's content. -/
def joinChar (c : Char) : List (List Char) → List Char
  | [] => []
  | [p] => p
  | p :: q :: ps => p ++ c :: joinChar c (q :: ps)

def closeSession (a : ActiveSession) (fin : TS) (content : Option String) : Session :=
  { date := String.mk (fmtDate a.start)
  , time_range := String.mk (joinChar ',' ((walk a.start fin a.breaks).map fmtInterval))
  , content := content }

/-- One transition of the builder (the `match e.ty.as_str()` of lines
94-136), returning the new state and the emitted session, if any. -/
def step (act : Option ActiveSession) (dt : TS) (ty : String) (content : Option String) :
    Option ActiveSession × Option Session :=
  if ty = "start" then
    (some { start := dt, breaks := [], last_break_start := none }, none)
  else if ty = "break_start" then
    match act with
    | some a => (some { a with last_break_start := some dt }, none)
    | none => (none, none)
  else if ty = "break_end" then
    match act with
    | some a =>
      match a.last_break_start with
      | some bs => (some { a with breaks := a.breaks ++ [(bs, dt)], last_break_start := none }, none)
      | none => (some a, none)
    | none => (none, none)
  else if ty = "finish" then
    match act with
    | some a => (none, some (closeSession a dt content))
    | none => (none, none)
  else (act, none)

/-- The event loop of `build_sessions`: parse each timestamp
(`.unwrap()` = abort the run on failure, modelled by `none`), feed the
machine, collect emitted sessions in order. -/
def processEvents : Option ActiveSession → List LogEvent → Option (List Session)
  | _, [] => some []
  | act, e :: rest =>
    match parseTS e.ts.data with
    | none => none
    | some dt =>
      match processEvents (step act dt e.ty e.content).1 rest with
      | none => none
      | some ss => some ((step act dt e.ty e.content).2.toList ++ ss)

/-- `build_sessions` (lines 87-139): sort by the timestamp string, then run
the machine from the empty state. -/
def build_sessions (events : List LogEvent) : Option (List Session) :=
  processEvents none (sortByTs events)

/-! ## Instrumented builder

The same machine, additionally tagging the active session and each emitted
session with the raw `ts` string of the `start` event that opened it.  Claims
about "the session's start timestamp" — data the emitted `Session` record no
longer carries — are stated against this trace; `processEventsTr_spec`
below proves it is the same machine. -/

def stepTr (act : Option (String × ActiveSession)) (ts : String) (dt : TS) (ty : String)
    (content : Option String) :
    Option (String × ActiveSession) × Option (String × Session) :=
  if ty = "start" then
    (some (ts, { start := dt, breaks := [], last_break_start := none }), none)
  else if ty = "break_start" then
    match act with
    | some (t, a) => (some (t, { a with last_break_start := some dt }), none)
    | none => (none, none)
  else if ty = "break_end" then
    match act with
    | some (t, a) =>
      match a.last_break_start with
      | some bs =>
        (some (t, { a with breaks := a.breaks ++ [(bs, dt)], last_break_start := none }), none)
      | none => (some (t, a), none)
    | none => (none, none)
  else if ty = "finish" then
    match act with
    | some (t, a) => (none, some (t, closeSession a dt content))
    | none => (none, none)
  else (act, none)

def processEventsTr :
    Option (String × ActiveSession) → List LogEvent → Option (List (String × Session))
  | _, [] => some []
  | act, e :: rest =>
    match parseTS e.ts.data with
    | none => none
    | some dt =>
      match processEventsTr (stepTr act e.ts dt e.ty e.content).1 rest with
      | none => none
      | some ss => some ((stepTr act e.ts dt e.ty e.content).2.toList ++ ss)

def build_sessions_tr (events : List LogEvent) : Option (List (String × Session)) :=
  processEventsTr none (sortByTs events)

/-! ## Punch-line writing (`record_event`, lines 76-85) -/

/-- The quote escaping of line 80: each `"` becomes `\"`. -/
def escQuotes : List Char → List Char
  | [] => []
  | c :: t => if c = '"' then '\\' :: '"' :: escQuotes t else c :: escQuotes t

/-- The log line `record_event` prints for a punch with the given timestamp
string, event type and optional content. -/
def record_event (ts ty : String) (content : Option String) : String :=
  String.mk ("ts=".data ++ ts.data ++ " type=".data ++ ty.data ++
    (match content with
     | some c => " content=".data ++ '"' :: (escQuotes c.data ++ ['"'])
     | none => []))

/-! ## Line reading (`read_events`, lines 191-212)

Models the regex
`ts=(?P<ts>[^ ]+) type=(?P<ty>[^ ]+)(?: content="(?P<ct>.*)")?`
with its leftmost-match semantics on a single line: at the first position
where the literal `ts=` is followed by a nonempty run of non-space
characters, the literal ` type=` and another nonempty non-space run, the
line is an event; the optional content group then greedily captures
everything between ` content="` and the *last* `"` of the line, without
unescaping. -/

/-- Maximal run of non-space characters and the remainder (`[^ ]+` with the
mandatory following context). -/
def nonspaceRun : List Char → List Char × List Char
  | [] => ([], [])
  | c :: t =>
    if c = ' ' then ([], c :: t)
    else
      let r := nonspaceRun t
      (c :: r.1, r.2)

/-- Everything strictly before the last occurrence of `c`. -/
def upToLast (c : Char) (l : List Char) : List Char :=
  ((l.reverse.dropWhile (fun x => x ≠ c)).drop 1).reverse

/-- The optional ` content="(.*)"` group: present only when the remainder
starts with the literal ` content="` and a closing `"` exists later in the
line; the greedy `.*` then captures up to the last `"`. -/
def captureContent : List Char → Option String
  | ' ' :: 'c' :: 'o' :: 'n' :: 't' :: 'e' :: 'n' :: 't' :: '=' :: '"' :: r =>
    if '"' ∈ r then some (String.mk (upToLast '"' r)) else none
  | _ => none

/-- Try to match the event regex starting exactly at this position: the
literal `ts=`, a nonempty `[^ ]+` capture, the literal ` type=`, a nonempty
`[^ ]+` capture, then the optional content group. -/
def matchAt : List Char → Option LogEvent
  | 't' :: 's' :: '=' :: r =>
    let p1 := nonspaceRun r
    if p1.1 = [] then none
    else
      match p1.2 with
      | ' ' :: 't' :: 'y' :: 'p' :: 'e' :: '=' :: r2 =>
        let p2 := nonspaceRun r2
        if p2.1 = [] then none
        else some ⟨String.mk p1.1, String.mk p2.1, captureContent p2.2⟩
      | _ => none
  | _ => none

/-- Leftmost match of the event regex in a line (`re.captures`). -/
def scanMatch : List Char → Option LogEvent
  | [] => none
  | c :: t =>
    match matchAt (c :: t) with
    | some e => some e
    | none => scanMatch t

/-- `read_events` over an in-memory list of lines: lines with no regex match
are silently skipped. -/
def read_events (lines : List String) : List LogEvent :=
  lines.filterMap (fun s => scanMatch s.data)

/-! ## Monthly aggregation (`summary_markdown`, lines 158-189) -/

/-- Rust `str::split(sep)` on characters. -/
def splitChar (c : Char) : List Char → List (List Char)
  | [] => [[]]
  | x :: t =>
    match splitChar c t with
    | [] => [[x]]
    | h :: r => if x = c then [] :: h :: r else (x :: h) :: r

/-- `NaiveTime::parse_from_str(s, "%H:%M")` on the zero-padded five-character
times the program itself writes: two digit hour, `:`, two digit minute,
range-checked, whole input consumed.  Result in minutes since midnight. -/
def parseHM : List Char → Option ℕ
  | [a, b, ':', c, d] =>
    if a.isDigit ∧ b.isDigit ∧ c.isDigit ∧ d.isDigit then
      let h := 10 * digVal a + digVal b
      let m := 10 * digVal c + digVal d
      if h ≤ 23 ∧ m ≤ 59 then some (60 * h + m) else none
    else none
  | _ => none

/-- The body of the per-part loop (lines 166-173): a part that does not split
as `start~end` contributes nothing; one that does is parsed (`.unwrap()` =
`none` aborts) and contributes `end − start` minutes, a *signed* wall-clock
difference. -/
def partMinutes (part : List Char) : Option ℤ :=
  match splitChar '~' part with
  | [s, e] =>
    match parseHM s, parseHM e with
    | some a, some b => some ((b : ℤ) - (a : ℤ))
    | _, _ => none
  | _ => some 0

/-- A session's total in fractional hours (`total`, lines 165-173): each
part adds `minutes / 60`. -/
def sessionTotal (s : Session) : Option ℚ :=
  (splitChar ',' s.time_range.data).foldl
    (fun acc p => do
      let a ← acc
      let m ← partMinutes p
      pure (a + (m : ℚ) / 60))
    (some 0)

/-- Integer-minute form of the same loop, used to evaluate concrete runs. -/
def sessionTotalMin (s : Session) : Option ℤ :=
  (splitChar ',' s.time_range.data).foldl
    (fun acc p => do
      let a ← acc
      let m ← partMinutes p
      pure (a + m))
    (some 0)

/-- The `BTreeMap` entry for one month key (lines 162-175): the sum of the
totals of the sessions whose `date[..7]` equals the key.  Every session's
total is computed (and can abort the run) whether or not it is in the
month. -/
def monthly_total (month : String) (ss : List Session) : Option ℚ :=
  ss.foldl
    (fun acc s => do
      let a ← acc
      let t ← sessionTotal s
      pure (if s.date.take 7 = month then a + t else a))
    (some 0)

/-- Integer-minute form of `monthly_total`. -/
def monthly_total_min (month : String) (ss : List Session) : Option ℤ :=
  ss.foldl
    (fun acc s => do
      let a ← acc
      let t ← sessionTotalMin s
      pure (if s.date.take 7 = month then a + t else a))
    (some 0)

/-- `f64::round`: round half away from zero. -/
def roundHalfAway (q : ℚ) : ℤ :=
  if q < 0 then -(Rat.floor (-q + 1/2)) else Rat.floor (q + 1/2)

/-- `as u64` on an integral `f64` value: saturating at `0` and `2^64 - 1`. -/
def u64sat (x : ℤ) : ℕ :=
  if x < 0 then 0 else min x.toNat (2 ^ 64 - 1)

/-- The numeric row values of lines 180-184: `hours_i = h.floor() as u64`,
`mins = ((h - hours_i as f64) * 60.0).round() as u64`,
`salary = (h * rate).round() as u64`. -/
def summaryNums (h rate : ℚ) : ℕ × ℕ × ℕ :=
  let hoursI := u64sat (Rat.floor h)
  let mins := u64sat (roundHalfAway ((h - (hoursI : ℚ)) * 60))
  let salary := u64sat (roundHalfAway (h * rate))
  (hoursI, mins, salary)

/-- `format!("{h:.2}")`: the value rounded to two decimals.  (On the
minute-granularity totals the program produces, `h * 100` is never a
half-integer, so every rounding mode agrees; half-away is used here.) -/
def decFmt2 (q : ℚ) : List Char :=
  let n := roundHalfAway (q * 100)
  (if n < 0 then ['-'] else []) ++
    (Nat.repr (n.natAbs / 100)).data ++ '.' :: pad2 (n.natAbs % 100)

/-- `rate.unwrap_or(0.0)` (line 176). -/
def rateOrZero (rate : Option ℚ) : ℚ := rate.getD 0

/-- The printed row for one month (line 185):
`| {m} | {hours_i}h{mins:02}m ({h:.2}h) | {salary} |`. -/
def summary_row (m : String) (h rate : ℚ) : String :=
  let n := summaryNums h rate
  String.mk ("| ".data ++ m.data ++ " | ".data ++ (Nat.repr n.1).data ++
    'h' :: (pad2 n.2.1 ++ 'm' :: (" (".data ++ decFmt2 h ++
    'h' :: (") | ".data ++ (Nat.repr n.2.2).data ++ " |".data))))

/-! ## Concrete event streams used by the claims -/

/-- Break exclusion example: 09:00 start, 12:00-13:00 break, 18:00 finish. -/
def evBreak : List LogEvent :=
  [ ⟨"2024-01-15T09:00:00+09:00", "start", none⟩
  , ⟨"2024-01-15T12:00:00+09:00", "break_start", none⟩
  , ⟨"2024-01-15T13:00:00+09:00", "break_end", none⟩
  , ⟨"2024-01-15T18:00:00+09:00", "finish", some "dev"⟩ ]

/-- Two `break_start` punches (12:00 then 12:30) inside one session. -/
def evTwoBreakStarts : List LogEvent :=
  [ ⟨"2024-01-15T09:00:00+09:00", "start", none⟩
  , ⟨"2024-01-15T12:00:00+09:00", "break_start", none⟩
  , ⟨"2024-01-15T12:30:00+09:00", "break_start", none⟩
  , ⟨"2024-01-15T13:00:00+09:00", "break_end", none⟩
  , ⟨"2024-01-15T18:00:00+09:00", "finish", none⟩ ]

/-- Unterminated break: 09:00 start, 12:00 break_start, 18:00 finish. -/
def evOpenBreak : List LogEvent :=
  [ ⟨"2024-01-15T09:00:00+09:00", "start", none⟩
  , ⟨"2024-01-15T12:00:00+09:00", "break_start", none⟩
  , ⟨"2024-01-15T18:00:00+09:00", "finish", none⟩ ]

/-- Re-start: 09:00 start, 10:00 start, 15:00 finish. -/
def evRestart : List LogEvent :=
  [ ⟨"2024-01-15T09:00:00+09:00", "start", none⟩
  , ⟨"2024-01-15T10:00:00+09:00", "start", none⟩
  , ⟨"2024-01-15T15:00:00+09:00", "finish", none⟩ ]

/-- A `start` and a `finish` bearing the *same* timestamp string, in the two
possible input orders. -/
def evTieSF : List LogEvent :=
  [ ⟨"2024-01-15T09:00:00+09:00", "start", none⟩
  , ⟨"2024-01-15T09:00:00+09:00", "finish", none⟩ ]

def evTieFS : List LogEvent :=
  [ ⟨"2024-01-15T09:00:00+09:00", "finish", none⟩
  , ⟨"2024-01-15T09:00:00+09:00", "start", none⟩ ]

/-- Two sessions whose timestamps mix UTC offsets: the string-sorted order
(05:00+00:00 first) is the reverse of the instant order (10:00+09:00 =
01:00 UTC is earlier). -/
def evOffsets : List LogEvent :=
  [ ⟨"2024-01-01T05:00:00+00:00", "start", none⟩
  , ⟨"2024-01-01T06:00:00+00:00", "finish", none⟩
  , ⟨"2024-01-01T10:00:00+09:00", "start", none⟩
  , ⟨"2024-01-01T11:00:00+09:00", "finish", none⟩ ]

/-- Two same-month sessions totalling 9.5 hours (4.5 h + 5 h). -/
def evNineHalf : List LogEvent :=
  [ ⟨"2024-01-15T09:00:00+09:00", "start", none⟩
  , ⟨"2024-01-15T13:30:00+09:00", "finish", none⟩
  , ⟨"2024-01-16T09:00:00+09:00", "start", none⟩
  , ⟨"2024-01-16T14:00:00+09:00", "finish", none⟩ ]

/-- A session crossing midnight: start 23:00, finish 01:00 the next day. -/
def evMidnight : List LogEvent :=
  [ ⟨"2024-01-01T23:00:00+09:00", "start", none⟩
  , ⟨"2024-01-02T01:00:00+09:00", "finish", none⟩ ]

/-- The sorting relation: timestamp strings in lexicographic order. -/
def leTs (a b : LogEvent) : Prop := listCharLeb a.ts.data b.ts.data = true

/-! # Helper lemmas -/

/-! ## The lexicographic order on timestamp strings -/

theorem listCharLeb_refl : ∀ l, listCharLeb l l = true
  | [] => rfl
  | _ :: t => by simp [listCharLeb, listCharLeb_refl t]

theorem listCharLeb_trans :
    ∀ a b c, listCharLeb a b = true → listCharLeb b c = true → listCharLeb a c = true
  | [], _, _, _, _ => rfl
  | _ :: _, [], _, h1, _ => by simp [listCharLeb] at h1
  | _ :: _, _ :: _, [], _, h2 => by simp [listCharLeb] at h2
  | x :: xs, y :: ys, z :: zs, h1, h2 => by
    simp only [listCharLeb] at h1 h2 ⊢
    by_cases hxy : x = y
    · subst hxy
      simp only [if_pos rfl] at h1
      by_cases hxz : x = z
      · subst hxz
        simp only [if_pos rfl] at h2 ⊢
        exact listCharLeb_trans xs ys zs h1 h2
      · simp only [if_neg hxz] at h2 ⊢
        exact h2
    · simp only [if_neg hxy] at h1
      have hlt1 : x < y := of_decide_eq_true h1
      by_cases hyz : y = z
      · have hxz : x ≠ z := by rw [← hyz]; exact hxy
        have hlt : x < z := by rw [← hyz]; exact hlt1
        simp only [if_neg hxz]
        exact decide_eq_true hlt
      · simp only [if_neg hyz] at h2
        have hlt2 : y < z := of_decide_eq_true h2
        have hlt : x < z := lt_trans hlt1 hlt2
        simp only [if_neg (ne_of_lt hlt)]
        exact decide_eq_true hlt

theorem listCharLeb_antisymm :
    ∀ a b, listCharLeb a b = true → listCharLeb b a = true → a = b
  | [], [], _, _ => rfl
  | [], _ :: _, _, h2 => by simp [listCharLeb] at h2
  | _ :: _, [], h1, _ => by simp [listCharLeb] at h1
  | x :: xs, y :: ys, h1, h2 => by
    simp only [listCharLeb] at h1 h2
    by_cases hxy : x = y
    · subst hxy
      simp only [if_pos rfl] at h1 h2
      exact congrArg (x :: ·) (listCharLeb_antisymm xs ys h1 h2)
    · simp only [if_neg hxy, if_neg (Ne.symm hxy)] at h1 h2
      exact absurd (of_decide_eq_true h1) (lt_asymm (of_decide_eq_true h2))

theorem listCharLtb_le :
    ∀ a b, listCharLtb a b = true → listCharLeb a b = true
  | [], _, _ => rfl
  | _ :: _, [], h => by simp [listCharLtb] at h
  | x :: xs, y :: ys, h => by
    simp only [listCharLtb] at h
    simp only [listCharLeb]
    by_cases hxy : x = y
    · simp only [if_pos hxy] at h ⊢
      exact listCharLtb_le xs ys h
    · simpa only [if_neg hxy] using h

theorem listCharLtb_false_le :
    ∀ a b, listCharLtb a b = false → listCharLeb b a = true
  | [], [], _ => rfl
  | [], _ :: _, h => by simp [listCharLtb] at h
  | _ :: _, [], _ => rfl
  | x :: xs, y :: ys, h => by
    simp only [listCharLtb] at h
    simp only [listCharLeb]
    by_cases hxy : x = y
    · simp only [if_pos hxy] at h
      simp only [if_pos hxy.symm]
      exact listCharLtb_false_le xs ys h
    · simp only [if_neg hxy] at h
      have hnot : ¬ x < y := of_decide_eq_false h
      have hlt : y < x := lt_of_le_of_ne (not_lt.mp hnot) (Ne.symm hxy)
      simp only [if_neg (Ne.symm hxy)]
      exact decide_eq_true hlt

theorem leTs_trans {a b c : LogEvent} (h1 : leTs a b) (h2 : leTs b c) : leTs a c :=
  listCharLeb_trans _ _ _ h1 h2

/-! ## The stable sort -/

theorem insertByTs_perm (e : LogEvent) : ∀ l, (insertByTs e l).Perm (e :: l)
  | [] => List.Perm.refl _
  | x :: t => by
    by_cases h : listCharLtb x.ts.data e.ts.data = true
    · simpa [insertByTs, h] using ((insertByTs_perm e t).cons x).trans (List.Perm.swap e x t)
    · simp [insertByTs, h]

theorem sortByTs_perm : ∀ l, (sortByTs l).Perm l
  | [] => List.Perm.refl _
  | e :: t => by
    simpa [sortByTs] using (insertByTs_perm e (sortByTs t)).trans ((sortByTs_perm t).cons e)

theorem mem_insertByTs {y e : LogEvent} {l : List LogEvent} :
    y ∈ insertByTs e l ↔ y = e ∨ y ∈ l := by
  constructor
  · intro h
    simpa using (insertByTs_perm e l).mem_iff.mp h
  · intro h
    apply (insertByTs_perm e l).mem_iff.mpr
    simpa using h

theorem insertByTs_pairwise (e : LogEvent) :
    ∀ l, l.Pairwise leTs → (insertByTs e l).Pairwise leTs
  | [], _ => by simp [insertByTs, List.Pairwise]
  | x :: t, hp => by
    rw [List.pairwise_cons] at hp
    by_cases h : listCharLtb x.ts.data e.ts.data = true
    · simp only [insertByTs, if_pos h]
      rw [List.pairwise_cons]
      refine ⟨?_, insertByTs_pairwise e t hp.2⟩
      intro y hy
      rcases mem_insertByTs.mp hy with rfl | hyt
      · exact listCharLtb_le _ _ h
      · exact hp.1 y hyt
    · simp only [insertByTs, if_neg h]
      rw [List.pairwise_cons]
      refine ⟨?_, List.pairwise_cons.mpr hp⟩
      intro y hy
      have hex : leTs e x := listCharLtb_false_le _ _ (by simpa using h)
      rcases List.mem_cons.mp hy with rfl | hyt
      · exact hex
      · exact leTs_trans hex (hp.1 y hyt)

theorem sortByTs_pairwise : ∀ l, (sortByTs l).Pairwise leTs
  | [] => List.Pairwise.nil
  | e :: t => insertByTs_pairwise e (sortByTs t) (sortByTs_pairwise t)

/-- Two sorted lists that are permutations of each other and whose timestamp
keys are pairwise distinct are equal. -/
theorem sorted_perm_nodup_eq :
    ∀ l₁ l₂ : List LogEvent, l₁.Perm l₂ → l₁.Pairwise leTs → l₂.Pairwise leTs →
      (l₁.map LogEvent.ts).Nodup → l₁ = l₂
  | [], l₂, hp, _, _, _ => (List.Perm.eq_nil hp.symm).symm
  | a :: t₁, [], hp, _, _, _ => absurd hp.eq_nil (List.cons_ne_nil a t₁)
  | a :: t₁, b :: t₂, hp, hs₁, hs₂, hnd => by
    by_cases hab : a = b
    · subst hab
      have ht : t₁ = t₂ :=
        sorted_perm_nodup_eq t₁ t₂ hp.cons_inv (List.pairwise_cons.mp hs₁).2
          (List.pairwise_cons.mp hs₂).2 (by simpa using (List.nodup_cons.mp (by simpa using hnd)).2)
      rw [ht]
    · exfalso
      have ha2 : a ∈ b :: t₂ := hp.mem_iff.mp (by simp)
      have hat2 : a ∈ t₂ := by
        rcases List.mem_cons.mp ha2 with h | h
        · exact absurd h hab
        · exact h
      have hb1 : b ∈ a :: t₁ := hp.symm.mem_iff.mp (by simp)
      have hbt1 : b ∈ t₁ := by
        rcases List.mem_cons.mp hb1 with h | h
        · exact absurd h.symm hab
        · exact h
      have hle1 : leTs a b := (List.pairwise_cons.mp hs₁).1 b hbt1
      have hle2 : leTs b a := (List.pairwise_cons.mp hs₂).1 a hat2
      have hts : a.ts = b.ts := by
        have := listCharLeb_antisymm _ _ hle1 hle2
        exact String.ext this
      have hnmem : a.ts ∉ t₁.map LogEvent.ts := (List.nodup_cons.mp (by simpa using hnd)).1
      exact hnmem (hts ▸ List.mem_map_of_mem LogEvent.ts hbt1)

/-! ## The instrumented machine is the machine -/

theorem stepTr_step (act : Option (String × ActiveSession)) (ts : String) (dt : TS)
    (ty : String) (c : Option String) :
    step (act.map Prod.snd) dt ty c =
      ((stepTr act ts dt ty c).1.map Prod.snd, (stepTr act ts dt ty c).2.map Prod.snd) := by
  cases act with
  | none =>
    unfold step stepTr
    split_ifs <;> rfl
  | some p =>
    obtain ⟨t, st, br, lb⟩ := p
    unfold step stepTr
    split_ifs <;> first
      | rfl
      | (cases lb <;> rfl)

theorem processEvents_tr :
    ∀ (l : List LogEvent) (act : Option (String × ActiveSession)),
      processEvents (act.map Prod.snd) l = (processEventsTr act l).map (List.map Prod.snd)
  | [], _ => rfl
  | e :: rest, act => by
    unfold processEvents processEventsTr
    cases hp : parseTS e.ts.data with
    | none => rfl
    | some dt =>
      dsimp only
      rw [stepTr_step act e.ts dt e.ty e.content]
      rw [processEvents_tr rest (stepTr act e.ts dt e.ty e.content).1]
      cases hrec : processEventsTr (stepTr act e.ts dt e.ty e.content).1 rest with
      | none => rfl
      | some ss =>
        simp only [Option.map_some', List.map_append]
        cases (stepTr act e.ts dt e.ty e.content).2 <;> rfl

/-- `build_sessions` is the instrumented builder with the tags erased. -/
theorem build_sessions_tr_spec (events : List LogEvent) :
    build_sessions events = (build_sessions_tr events).map (List.map Prod.snd) :=
  processEvents_tr (sortByTs events) none

/-! ## A timestamp that fails to parse aborts the whole run -/

theorem processEvents_bad :
    ∀ (l : List LogEvent) (act : Option ActiveSession),
      (∃ e ∈ l, parseTS e.ts.data = none) → processEvents act l = none
  | [], _, h => absurd h (by simp)
  | e :: rest, act, h => by
    unfold processEvents
    cases hp : parseTS e.ts.data with
    | none => rfl
    | some dt =>
      have hbad : ∃ e' ∈ rest, parseTS e'.ts.data = none := by
        rcases h with ⟨e', he', hb⟩
        rcases List.mem_cons.mp he' with rfl | hmem
        · rw [hp] at hb
          exact absurd hb (by simp)
        · exact ⟨e', hmem, hb⟩
      dsimp only
      rw [processEvents_bad rest (step act dt e.ty e.content).1 hbad]

/-! ## Emitted start tags are sorted (for the sorted event list) -/

theorem stepTr_emit (act : Option (String × ActiveSession)) (ts : String) (dt : TS)
    (ty : String) (c : Option String) (t : String) (s : Session)
    (h : (stepTr act ts dt ty c).2 = some (t, s)) :
    (∃ a, act = some (t, a)) ∧ (stepTr act ts dt ty c).1 = none := by
  cases act with
  | none =>
    unfold stepTr at h ⊢
    split_ifs at h ⊢ <;> simp_all
  | some p =>
    obtain ⟨t', st, br, lb⟩ := p
    unfold stepTr at h ⊢
    split_ifs at h ⊢ <;> (try cases lb) <;> simp_all

theorem stepTr_new (act : Option (String × ActiveSession)) (ts : String) (dt : TS)
    (ty : String) (c : Option String) (t' : String) (a' : ActiveSession)
    (h : (stepTr act ts dt ty c).1 = some (t', a')) :
    t' = ts ∨ ∃ a, act = some (t', a) := by
  cases act with
  | none =>
    unfold stepTr at h
    split_ifs at h <;> simp_all
  | some p =>
    obtain ⟨t, st, br, lb⟩ := p
    unfold stepTr at h
    split_ifs at h <;> (try cases lb) <;> simp_all

/-- The central invariant: on a timestamp-sorted event list, the start tags
of the emitted sessions are sorted, they dominate the current active tag,
and every tag is either the active tag or the timestamp of a listed event. -/
theorem processTr_tags :
    ∀ (l : List LogEvent) (act : Option (String × ActiveSession))
      (res : List (String × Session)),
      l.Pairwise leTs →
      (∀ t a, act = some (t, a) → ∀ e ∈ l, listCharLeb t.data e.ts.data = true) →
      processEventsTr act l = some res →
      ((res.map Prod.fst).Pairwise (fun u v => listCharLeb u.data v.data = true)
        ∧ (∀ t a, act = some (t, a) → ∀ u ∈ res.map Prod.fst, listCharLeb t.data u.data = true)
        ∧ (∀ u ∈ res.map Prod.fst, (∃ a, act = some (u, a)) ∨ ∃ e ∈ l, e.ts = u))
  | [], act, res, _, _, hres => by
    unfold processEventsTr at hres
    obtain rfl : ([] : List (String × Session)) = res := Option.some.injEq _ _ ▸ hres
    exact ⟨List.Pairwise.nil, by simp, by simp⟩
  | e :: rest, act, res, hsort, hact, hres => by
    rw [List.pairwise_cons] at hsort
    unfold processEventsTr at hres
    cases hp : parseTS e.ts.data with
    | none => rw [hp] at hres; exact absurd hres (by simp)
    | some dt =>
      rw [hp] at hres
      dsimp only at hres
      cases hrec : processEventsTr (stepTr act e.ts dt e.ty e.content).1 rest with
      | none => rw [hrec] at hres; exact absurd hres (by simp)
      | some ss =>
        rw [hrec] at hres
        dsimp only at hres
        have hres' : (stepTr act e.ts dt e.ty e.content).2.toList ++ ss = res := by
          simpa using hres
        have hact' : ∀ t a, (stepTr act e.ts dt e.ty e.content).1 = some (t, a) →
            ∀ e' ∈ rest, listCharLeb t.data e'.ts.data = true := by
          intro t a hsome e' he'
          rcases stepTr_new act e.ts dt e.ty e.content t a hsome with rfl | ⟨a₀, ha₀⟩
          · exact hsort.1 e' he'
          · exact hact t a₀ ha₀ e' (List.mem_cons_of_mem e he')
        obtain ⟨ih1, ih2, ih3⟩ :=
          processTr_tags rest (stepTr act e.ts dt e.ty e.content).1 ss hsort.2 hact' hrec
        cases hem : (stepTr act e.ts dt e.ty e.content).2 with
        | none =>
          rw [hem] at hres'
          simp only [Option.toList_none, List.nil_append] at hres'
          subst hres'
          refine ⟨ih1, ?_, ?_⟩
          · intro t a ha u hu
            rcases ih3 u hu with ⟨a', ha'⟩ | ⟨e', he', rfl⟩
            · rcases stepTr_new act e.ts dt e.ty e.content u a' ha' with rfl | ⟨a₀, ha₀⟩
              · exact hact t a ha e (List.mem_cons_self e rest)
              · rw [ha] at ha₀
                obtain ⟨rfl, -⟩ := Prod.mk.injEq .. ▸ (Option.some.injEq _ _).mp ha₀
                exact listCharLeb_refl _
            · exact hact t a ha e' (List.mem_cons_of_mem e he')
          · intro u hu
            rcases ih3 u hu with ⟨a', ha'⟩ | ⟨e', he', rfl⟩
            · rcases stepTr_new act e.ts dt e.ty e.content u a' ha' with rfl | ⟨a₀, ha₀⟩
              · exact Or.inr ⟨e, List.mem_cons_self e rest, rfl⟩
              · exact Or.inl ⟨a₀, ha₀⟩
            · exact Or.inr ⟨e', List.mem_cons_of_mem e he', rfl⟩
        | some p =>
          obtain ⟨u₀, s₀⟩ := p
          obtain ⟨⟨a₀, ha₀⟩, hnone⟩ := stepTr_emit act e.ts dt e.ty e.content u₀ s₀ hem
          rw [hem] at hres'
          simp only [Option.toList_some, List.singleton_append] at hres'
          subst hres'
          have hu₀e : listCharLeb u₀.data e.ts.data = true :=
            hact u₀ a₀ ha₀ e (List.mem_cons_self e rest)
          have hdom : ∀ u ∈ ss.map Prod.fst, listCharLeb u₀.data u.data = true := by
            intro u hu
            rcases ih3 u hu with ⟨a', ha'⟩ | ⟨e', he', rfl⟩
            · rw [hnone] at ha'
              exact absurd ha' (by simp)
            · exact listCharLeb_trans _ _ _ hu₀e (hsort.1 e' he')
          refine ⟨?_, ?_, ?_⟩
          · simp only [List.map_cons]
            exact List.pairwise_cons.mpr ⟨hdom, ih1⟩
          · intro t a ha u hu
            simp only [List.map_cons, List.mem_cons] at hu
            rw [ha] at ha₀
            obtain ⟨rfl, -⟩ := Prod.mk.injEq .. ▸ (Option.some.injEq _ _).mp ha₀
            rcases hu with rfl | hu
            · exact listCharLeb_refl _
            · exact hdom u hu
          · intro u hu
            simp only [List.map_cons, List.mem_cons] at hu
            rcases hu with rfl | hu
            · exact Or.inl ⟨a₀, ha₀⟩
            · rcases ih3 u hu with ⟨a', ha'⟩ | ⟨e', he', rfl⟩
              · rw [hnone] at ha'
                exact absurd ha' (by simp)
              · exact Or.inr ⟨e', List.mem_cons_of_mem e he', rfl⟩

/-! ## Fractional-hour totals are integer-minute totals divided by 60 -/

theorem foldl_q_none :
    ∀ ps : List (List Char),
      ps.foldl (fun acc p => do
        let a ← acc
        let m ← partMinutes p
        pure (a + (m : ℚ) / 60)) none = none
  | [] => rfl
  | _ :: ps => foldl_q_none ps

theorem foldl_z_none :
    ∀ ps : List (List Char),
      ps.foldl (fun acc p => do
        let a ← acc
        let m ← partMinutes p
        pure (a + m)) none = none
  | [] => rfl
  | _ :: ps => foldl_z_none ps

theorem total_foldl_div :
    ∀ (ps : List (List Char)) (z : ℤ),
      ps.foldl (fun acc p => do
        let a ← acc
        let m ← partMinutes p
        pure (a + (m : ℚ) / 60)) (some ((z : ℚ) / 60))
        = (ps.foldl (fun acc p => do
            let a ← acc
            let m ← partMinutes p
            pure (a + m)) (some z)).map (fun n : ℤ => (n : ℚ) / 60)
  | [], _ => rfl
  | p :: ps, z => by
    cases hm : partMinutes p with
    | none =>
      simp only [List.foldl_cons]
      rw [hm]
      show List.foldl _ (none : Option ℚ) ps = Option.map _ (List.foldl _ (none : Option ℤ) ps)
      rw [foldl_q_none ps, foldl_z_none ps]
      rfl
    | some m =>
      have hq : (z : ℚ) / 60 + (m : ℚ) / 60 = (((z + m : ℤ)) : ℚ) / 60 := by
        push_cast
        ring
      simp only [List.foldl_cons]
      rw [hm]
      show List.foldl _ (some ((z : ℚ) / 60 + (m : ℚ) / 60)) ps
        = Option.map _ (List.foldl _ (some (z + m)) ps)
      rw [hq]
      exact total_foldl_div ps (z + m)

theorem sessionTotal_div (s : Session) :
    sessionTotal s = (sessionTotalMin s).map (fun n : ℤ => (n : ℚ) / 60) := by
  unfold sessionTotal sessionTotalMin
  have h0 : (some (0 : ℚ)) = some (((0 : ℤ) : ℚ) / 60) := by norm_num
  rw [h0]
  exact total_foldl_div _ 0

theorem monthly_foldl_q_none (month : String) :
    ∀ ss : List Session,
      ss.foldl (fun acc s => do
        let a ← acc
        let t ← sessionTotal s
        pure (if s.date.take 7 = month then a + t else a)) none = none
  | [] => rfl
  | _ :: ss => monthly_foldl_q_none month ss

theorem monthly_foldl_z_none (month : String) :
    ∀ ss : List Session,
      ss.foldl (fun acc s => do
        let a ← acc
        let t ← sessionTotalMin s
        pure (if s.date.take 7 = month then a + t else a)) none = none
  | [] => rfl
  | _ :: ss => monthly_foldl_z_none month ss

theorem monthly_foldl_div (month : String) :
    ∀ (ss : List Session) (z : ℤ),
      ss.foldl (fun acc s => do
        let a ← acc
        let t ← sessionTotal s
        pure (if s.date.take 7 = month then a + t else a)) (some ((z : ℚ) / 60))
        = (ss.foldl (fun acc s => do
            let a ← acc
            let t ← sessionTotalMin s
            pure (if s.date.take 7 = month then a + t else a)) (some z)).map
              (fun n : ℤ => (n : ℚ) / 60)
  | [], _ => rfl
  | s :: ss, z => by
    simp only [List.foldl_cons]
    rw [sessionTotal_div s]
    cases hm : sessionTotalMin s with
    | none =>
      show List.foldl _ (none : Option ℚ) ss = Option.map _ (List.foldl _ (none : Option ℤ) ss)
      rw [monthly_foldl_q_none month ss, monthly_foldl_z_none month ss]
      rfl
    | some m =>
      by_cases hmon : s.date.take 7 = month
      · simp only [if_pos hmon]
        show List.foldl _ (some ((z : ℚ) / 60 + (m : ℚ) / 60)) ss
          = Option.map _ (List.foldl _ (some (z + m)) ss)
        have hq : (z : ℚ) / 60 + (m : ℚ) / 60 = (((z + m : ℤ)) : ℚ) / 60 := by
          push_cast
          ring
        rw [hq]
        exact monthly_foldl_div month ss (z + m)
      · simp only [if_neg hmon]
        show List.foldl _ (some ((z : ℚ) / 60)) ss
          = Option.map _ (List.foldl _ (some z) ss)
        exact monthly_foldl_div month ss z

theorem monthly_total_div (month : String) (ss : List Session) :
    monthly_total month ss = (monthly_total_min month ss).map (fun n : ℤ => (n : ℚ) / 60) := by
  unfold monthly_total monthly_total_min
  have h0 : (some (0 : ℚ)) = some (((0 : ℤ) : ℚ) / 60) := by norm_num
  rw [h0]
  exact monthly_foldl_div month ss 0

/-! ## Rounding helpers -/

theorem ratFloor_intFloor (q : ℚ) : Rat.floor q = ⌊q⌋ := rfl

theorem floor_half : ⌊(1 : ℚ) / 2⌋ = 0 :=
  Int.floor_eq_zero_iff.mpr ⟨by norm_num, by norm_num⟩

theorem roundHalfAway_intCast (n : ℤ) : roundHalfAway ((n : ℚ)) = n := by
  unfold roundHalfAway
  rw [ratFloor_intFloor, ratFloor_intFloor]
  split_ifs with h
  · have hcast : -(n : ℚ) + 1 / 2 = ((-n : ℤ) : ℚ) + 1 / 2 := by push_cast; ring
    rw [hcast, Int.floor_int_add, floor_half]
    omega
  · have hcast : (n : ℚ) + 1 / 2 = ((n : ℤ) : ℚ) + 1 / 2 := by push_cast; ring
    rw [hcast, Int.floor_int_add, floor_half]
    omega

theorem roundHalfAway_nonneg {q : ℚ} (h : 0 ≤ q) : 0 ≤ roundHalfAway q := by
  unfold roundHalfAway
  rw [if_neg (not_lt.mpr h), ratFloor_intFloor]
  exact Int.floor_nonneg.mpr (by linarith)

theorem roundHalfAway_le_of_lt {q : ℚ} {B : ℤ} (h0 : 0 ≤ q) (h : q < (B : ℚ)) :
    roundHalfAway q ≤ B := by
  unfold roundHalfAway
  rw [if_neg (not_lt.mpr h0), ratFloor_intFloor]
  have hle : ⌊q + 1 / 2⌋ ≤ ⌊(B : ℚ) + 1 / 2⌋ := Int.floor_le_floor (by linarith)
  rw [Int.floor_int_add, floor_half] at hle
  omega

theorem u64sat_eq {x : ℤ} (h0 : 0 ≤ x) (h1 : x ≤ 2 ^ 64 - 1) : (u64sat x : ℤ) = x := by
  unfold u64sat
  rw [if_neg (not_lt.mpr h0)]
  have hb : (2 : ℤ) ^ 64 - 1 = ((2 ^ 64 - 1 : ℕ) : ℤ) := by norm_num
  rw [hb] at h1
  have hx : x.toNat ≤ 2 ^ 64 - 1 := by omega
  rw [min_eq_left hx]
  omega

/-! ## Formatted times parse back to their minute values -/

theorem parseHM_fmtHM : ∀ h, h < 24 → ∀ m, m < 60 → parseHM (fmtHM h m) = some (60 * h + m) := by
  decide

theorem tilde_notin_fmtHM : ∀ h, h < 24 → ∀ m, m < 60 → '~' ∉ fmtHM h m := by
  decide

theorem splitChar_ne_nil (c : Char) : ∀ l, splitChar c l ≠ []
  | [] => by simp [splitChar]
  | x :: t => by
    unfold splitChar
    cases splitChar c t with
    | nil => simp
    | cons h r => by_cases hx : x = c <;> simp [hx]

theorem splitChar_not_mem {c : Char} : ∀ {p : List Char}, c ∉ p → splitChar c p = [p]
  | [], _ => rfl
  | x :: t, h => by
    have hx : ¬ x = c := fun hh => h (hh ▸ List.mem_cons_self x t)
    have ht : c ∉ t := fun hh => h (List.mem_cons_of_mem x hh)
    unfold splitChar
    rw [splitChar_not_mem ht]
    simp [hx]

theorem splitChar_append {c : Char} :
    ∀ {p : List Char} (q : List Char), c ∉ p →
      splitChar c (p ++ c :: q) = p :: splitChar c q
  | [], q, _ => by
    simp only [List.nil_append, splitChar]
    cases hq : splitChar c q with
    | nil => exact absurd hq (splitChar_ne_nil c q)
    | cons h r => simp
  | x :: p, q, h => by
    have hx : ¬ x = c := fun hh => h (hh ▸ List.mem_cons_self x p)
    have hp : c ∉ p := fun hh => h (List.mem_cons_of_mem x hh)
    simp only [List.cons_append, splitChar]
    simp only [List.append_eq]
    rw [splitChar_append q hp]
    simp [hx]

/-- The per-part arithmetic of the summary on a formatted interval: the
signed minute difference `end − start`. -/
theorem partMinutes_fmt {h1 m1 h2 m2 : ℕ}
    (hb1 : h1 < 24) (hb2 : m1 < 60) (hb3 : h2 < 24) (hb4 : m2 < 60) :
    partMinutes (fmtHM h1 m1 ++ '~' :: fmtHM h2 m2)
      = some (((60 * h2 + m2 : ℕ) : ℤ) - ((60 * h1 + m1 : ℕ) : ℤ)) := by
  unfold partMinutes
  rw [splitChar_append _ (tilde_notin_fmtHM h1 hb1 m1 hb2),
    splitChar_not_mem (tilde_notin_fmtHM h2 hb3 m2 hb4)]
  dsimp only
  rw [parseHM_fmtHM h1 hb1 m1 hb2, parseHM_fmtHM h2 hb3 m2 hb4]

/-! ## Round-trip helpers for the punch line -/

theorem string_mk_data (s : String) : String.mk s.data = s := rfl

theorem nonspaceRun_append :
    ∀ (p q : List Char), (∀ ch ∈ p, ch ≠ ' ') → nonspaceRun (p ++ ' ' :: q) = (p, ' ' :: q)
  | [], q, _ => by simp [nonspaceRun]
  | x :: p, q, h => by
    have hx : ¬ x = ' ' := h x (List.mem_cons_self x p)
    have hp : ∀ ch ∈ p, ch ≠ ' ' := fun ch hch => h ch (List.mem_cons_of_mem x hch)
    simp only [List.cons_append]
    unfold nonspaceRun
    rw [if_neg hx, nonspaceRun_append p q hp]

theorem upToLast_append (c : Char) (l : List Char) : upToLast c (l ++ [c]) = l := by
  unfold upToLast
  rw [List.reverse_append]
  simp [List.dropWhile]

theorem escQuotes_length :
    ∀ l : List Char, (escQuotes l).length = l.length + l.count '"'
  | [] => rfl
  | c :: t => by
    by_cases hc : c = '"'
    · subst hc
      have he : escQuotes ('"' :: t) = '\\' :: '"' :: escQuotes t := rfl
      rw [he]
      simp only [List.length_cons, escQuotes_length t, List.count_cons_self]
      omega
    · simp only [escQuotes, if_neg hc, List.length_cons, escQuotes_length t]
      rw [List.count_cons_of_ne (fun hh => hc hh.symm)]
      omega

theorem escQuotes_ne {l : List Char} (h : '"' ∈ l) : escQuotes l ≠ l := by
  intro heq
  have hlen := escQuotes_length l
  rw [heq] at hlen
  have hpos : 0 < l.count '"' := List.count_pos_iff.mpr h
  omega

/-! # Claim theorems -/

/-- C1 counterexample: a `break_start` arriving while a break is already
pending does *not* leave the builder state unchanged — the pending break
start 12:00 is replaced by the new event's 12:30, observably changing the
emitted intervals from `09:00~12:00,13:00~18:00` to
`09:00~12:30,13:00~18:00`. -/
theorem C1_counterexample :
    step (some ⟨⟨2024, 1, 15, 9, 0, 0, 540⟩, [], some ⟨2024, 1, 15, 12, 0, 0, 540⟩⟩)
        ⟨2024, 1, 15, 12, 30, 0, 540⟩ "break_start" none
      ≠ (some ⟨⟨2024, 1, 15, 9, 0, 0, 540⟩, [], some ⟨2024, 1, 15, 12, 0, 0, 540⟩⟩, none)
    ∧ build_sessions evTwoBreakStarts
        = some [⟨"2024/01/15", "09:00~12:30,13:00~18:00", none⟩]
    ∧ ("09:00~12:30,13:00~18:00" : String) ≠ "09:00~12:00,13:00~18:00" :=
  ⟨by decide, by decide, by decide⟩

/-- C1 (amended): a `break_start` while a session is active *replaces* any
pending break start with the new event's timestamp (the later punch wins);
while no session is active it is a no-op.  The two-break-start stream shows
the replacement in the output. -/
theorem C1_break_start_replaces :
    (∀ (a : ActiveSession) (dt : TS) (c : Option String),
      step (some a) dt "break_start" c = (some { a with last_break_start := some dt }, none))
    ∧ (∀ (dt : TS) (c : Option String), step none dt "break_start" c = (none, none))
    ∧ build_sessions evTwoBreakStarts
        = some [⟨"2024/01/15", "09:00~12:30,13:00~18:00", none⟩] :=
  ⟨fun _ _ _ => rfl, fun _ _ => rfl, by decide⟩

/-- C2: a `finish` while active emits exactly the session obtained by walking
the closed breaks in order — `(cursor, break start)` then `cursor := break
end` for each break, finally `(cursor, finish)` — with the finish event's
content attached; on the 09:00/12:00-13:00/18:00 example the intervals are
exactly `09:00~12:00,13:00~18:00` and the monthly contribution is 8 hours. -/
theorem C2_finish_walk :
    (∀ (a : ActiveSession) (dt : TS) (c : Option String),
      step (some a) dt "finish" c
        = (none, some ⟨String.mk (fmtDate a.start),
            String.mk (joinChar ',' ((walk a.start dt a.breaks).map fmtInterval)), c⟩))
    ∧ build_sessions evBreak = some [⟨"2024/01/15", "09:00~12:00,13:00~18:00", some "dev"⟩]
    ∧ (build_sessions evBreak).bind (fun ss => monthly_total "2024/01" ss) = some 8 := by
  refine ⟨fun _ _ _ => rfl, by decide, ?_⟩
  have hb : build_sessions evBreak
      = some [⟨"2024/01/15", "09:00~12:00,13:00~18:00", some "dev"⟩] := by decide
  rw [hb, Option.some_bind, monthly_total_div]
  have hm : monthly_total_min "2024/01" [⟨"2024/01/15", "09:00~12:00,13:00~18:00", some "dev"⟩]
      = some 480 := by decide
  rw [hm]
  show some (((480 : ℤ) : ℚ) / 60) = some 8
  norm_num

/-- C3: a pending (never closed) break start is dropped on `finish`: the
emitted session is independent of the `last_break_start` field, and on the
09:00/12:00-open/18:00 example the single interval `09:00~18:00` with the
full 9 hours is produced. -/
theorem C3_open_break_dropped :
    (∀ (a : ActiveSession) (dt : TS) (c : Option String) (x : Option TS),
      step (some { a with last_break_start := x }) dt "finish" c
        = step (some a) dt "finish" c)
    ∧ build_sessions evOpenBreak = some [⟨"2024/01/15", "09:00~18:00", none⟩]
    ∧ (build_sessions evOpenBreak).bind (fun ss => monthly_total "2024/01" ss) = some 9 := by
  refine ⟨fun _ _ _ _ => rfl, by decide, ?_⟩
  have hb : build_sessions evOpenBreak = some [⟨"2024/01/15", "09:00~18:00", none⟩] := by decide
  rw [hb, Option.some_bind, monthly_total_div]
  have hm : monthly_total_min "2024/01" [⟨"2024/01/15", "09:00~18:00", none⟩]
      = some 540 := by decide
  rw [hm]
  show some (((540 : ℤ) : ℚ) / 60) = some 9
  norm_num

/-- C4: a `start` while a session is already active discards the prior
active session without emitting anything and opens a fresh session at the
new time with no breaks; 09:00-start/10:00-start/15:00-finish yields exactly
one session `10:00~15:00`. -/
theorem C4_restart_discards :
    (∀ (act : Option ActiveSession) (dt : TS) (c : Option String),
      step act dt "start" c
        = (some { start := dt, breaks := [], last_break_start := none }, none))
    ∧ build_sessions evRestart = some [⟨"2024/01/15", "10:00~15:00", none⟩] :=
  ⟨fun _ _ _ => rfl, by decide⟩

/-- C5 counterexample: the two orderings of a `start` and a `finish` that
share one timestamp string are permutations of each other, yet the builder
emits one session for one ordering and none for the other — the stable sort
preserves the input order of equal keys, so permutation invariance fails at
ties. -/
theorem C5_counterexample :
    evTieSF.Perm evTieFS
    ∧ build_sessions evTieSF = some [⟨"2024/01/15", "09:00~09:00", none⟩]
    ∧ build_sessions evTieFS = some []
    ∧ build_sessions evTieSF ≠ build_sessions evTieFS :=
  ⟨by decide, by decide, by decide, by decide⟩

/-- C5 (amended): feeding the same event multiset in any order yields the
same session list *provided the timestamp strings are pairwise distinct*;
with duplicated timestamps the stable sort preserves arrival order among the
ties and the result can differ. -/
theorem C5_perm_invariance (l₁ l₂ : List LogEvent) (hp : l₁.Perm l₂)
    (hnd : (l₁.map LogEvent.ts).Nodup) :
    build_sessions l₁ = build_sessions l₂ := by
  have hs : sortByTs l₁ = sortByTs l₂ := by
    apply sorted_perm_nodup_eq
    · exact (sortByTs_perm l₁).trans (hp.trans (sortByTs_perm l₂).symm)
    · exact sortByTs_pairwise l₁
    · exact sortByTs_pairwise l₂
    · exact ((sortByTs_perm l₁).map LogEvent.ts).nodup_iff.mpr hnd
  unfold build_sessions
  rw [hs]

/-- C5 witness: the amended invariance applied to a concrete two-event
stream and its reversal. -/
theorem C5_perm_invariance_witness :
    build_sessions
        [⟨"2024-01-15T09:00:00+09:00", "start", none⟩,
         ⟨"2024-01-15T10:00:00+09:00", "finish", none⟩]
      = build_sessions
        [⟨"2024-01-15T10:00:00+09:00", "finish", none⟩,
         ⟨"2024-01-15T09:00:00+09:00", "start", none⟩] :=
  C5_perm_invariance _ _ (by decide) (by decide)

/-- C9: a line matching the event shape whose timestamp fails to parse
aborts the whole run (no session list at all is produced), while a line that
does not match the event shape is silently skipped by the reader. -/
theorem C9_fatal_vs_skip :
    (∀ evs : List LogEvent, (∃ e ∈ evs, parseTS e.ts.data = none) → build_sessions evs = none)
    ∧ (∀ (line : String) (lines : List String), scanMatch line.data = none →
        read_events (line :: lines) = read_events lines) := by
  constructor
  · intro evs ⟨e, he, hbad⟩
    exact processEvents_bad (sortByTs evs) none
      ⟨e, (sortByTs_perm evs).mem_iff.mpr he, hbad⟩
  · intro line lines h
    simp [read_events, List.filterMap_cons, h]

/-- C9 witness: a shape-matching event with unparseable timestamp kills the
whole run; a non-matching junk line is skipped. -/
theorem C9_fatal_vs_skip_witness :
    build_sessions [⟨"garbage", "start", none⟩] = none
    ∧ read_events ["hello world", "ts=2024-01-15T09:00:00+09:00 type=start"]
        = read_events ["ts=2024-01-15T09:00:00+09:00 type=start"] :=
  ⟨C9_fatal_vs_skip.1 _ ⟨⟨"garbage", "start", none⟩, by decide, by decide⟩,
   C9_fatal_vs_skip.2 _ _ (by decide)⟩

/-- C10: durations are signed wall-clock differences of the formatted
`HH:MM` endpoints, so a final interval whose finish time-of-day is earlier
than its start contributes negative minutes; the 23:00-start/01:00-finish
session yields the interval `23:00~01:00` and a monthly total of −22
hours. -/
theorem C10_midnight_negative :
    (∀ h1 m1 h2 m2 : ℕ, h1 < 24 → m1 < 60 → h2 < 24 → m2 < 60 →
      60 * h2 + m2 < 60 * h1 + m1 →
      partMinutes (fmtHM h1 m1 ++ '~' :: fmtHM h2 m2)
        = some (((60 * h2 + m2 : ℕ) : ℤ) - ((60 * h1 + m1 : ℕ) : ℤ))
      ∧ ((60 * h2 + m2 : ℕ) : ℤ) - ((60 * h1 + m1 : ℕ) : ℤ) < 0)
    ∧ build_sessions evMidnight = some [⟨"2024/01/01", "23:00~01:00", none⟩]
    ∧ (build_sessions evMidnight).bind (fun ss => monthly_total "2024/01" ss) = some (-22)
    ∧ ((-22 : ℚ) < 0) := by
  refine ⟨?_, by decide, ?_, by norm_num⟩
  · intro h1 m1 h2 m2 hb1 hb2 hb3 hb4 hlt
    refine ⟨partMinutes_fmt hb1 hb2 hb3 hb4, ?_⟩
    have : ((60 * h2 + m2 : ℕ) : ℤ) < ((60 * h1 + m1 : ℕ) : ℤ) := by exact_mod_cast hlt
    omega
  · have hb : build_sessions evMidnight = some [⟨"2024/01/01", "23:00~01:00", none⟩] := by
      decide
    rw [hb, Option.some_bind, monthly_total_div]
    have hm : monthly_total_min "2024/01" [⟨"2024/01/01", "23:00~01:00", none⟩]
        = some (-1320) := by decide
    rw [hm]
    show some (((-1320 : ℤ) : ℚ) / 60) = some (-22)
    norm_num

/-- C10 witness: the per-interval law applied to the 23:00 → 01:00
interval. -/
theorem C10_midnight_negative_witness :
    partMinutes (fmtHM 23 0 ++ '~' :: fmtHM 1 0)
      = some (((60 * 1 + 0 : ℕ) : ℤ) - ((60 * 23 + 0 : ℕ) : ℤ))
    ∧ ((60 * 1 + 0 : ℕ) : ℤ) - ((60 * 23 + 0 : ℕ) : ℤ) < 0 :=
  C10_midnight_negative.1 23 0 1 0 (by decide) (by decide) (by decide) (by decide) (by decide)

/-- C6 counterexample: with mixed UTC offsets the builder emits sessions in
timestamp-*string* order, not instant order: the session opened at
05:00+00:00 (instant 1704085200) is emitted before the one opened at
10:00+09:00 (instant 1704070800), which is 4 hours *earlier* as a point in
time. -/
theorem C6_counterexample :
    build_sessions_tr evOffsets
      = some [("2024-01-01T05:00:00+00:00", ⟨"2024/01/01", "05:00~06:00", none⟩),
              ("2024-01-01T10:00:00+09:00", ⟨"2024/01/01", "10:00~11:00", none⟩)]
    ∧ instantOfString "2024-01-01T05:00:00+00:00" = some 1704085200
    ∧ instantOfString "2024-01-01T10:00:00+09:00" = some 1704070800
    ∧ ((1704070800 : ℤ) < 1704085200) :=
  ⟨by decide, by decide, by decide, by decide⟩

/-- C6 (amended): the start timestamps of the emitted sessions are
non-decreasing in the *lexicographic string order* the sort uses (which
coincides with instant order only when the UTC offsets agree), because
events are sorted by their timestamp strings before processing. -/
theorem C6_start_tags_sorted (evs : List LogEvent) (l : List (String × Session))
    (h : build_sessions_tr evs = some l) :
    (l.map Prod.fst).Pairwise (fun u v => listCharLeb u.data v.data = true) := by
  unfold build_sessions_tr at h
  obtain ⟨h1, -, -⟩ :=
    processTr_tags (sortByTs evs) none l (sortByTs_pairwise evs)
      (fun t a hne => absurd hne (by simp)) h
  exact h1

/-- C6 witness: the sortedness of the emitted start tags on the concrete
mixed-offset stream. -/
theorem C6_start_tags_sorted_witness :
    ((["2024-01-01T05:00:00+00:00", "2024-01-01T10:00:00+09:00"] : List String).Pairwise
      (fun u v => listCharLeb u.data v.data = true)) := by
  have h := C6_start_tags_sorted evOffsets
    [("2024-01-01T05:00:00+00:00", ⟨"2024/01/01", "05:00~06:00", none⟩),
     ("2024-01-01T10:00:00+09:00", ⟨"2024/01/01", "10:00~11:00", none⟩)] (by decide)
  simpa using h

theorem data_string_mk (l : List Char) : (String.mk l).data = l := rfl

/-- C7 counterexample: a `finish` punch whose content is `a"b`, written and
re-parsed, yields the *escaped* text `a\"b`, not the original — the reader's
greedy capture does not unescape. -/
theorem C7_counterexample :
    scanMatch (record_event "2024-01-15T18:00:00+09:00" "finish" (some "a\"b")).data
      = some ⟨"2024-01-15T18:00:00+09:00", "finish", some "a\\\"b"⟩
    ∧ ("a\\\"b" : String) ≠ "a\"b" :=
  ⟨by decide, by decide⟩

set_option maxHeartbeats 2000000 in
/-- C7 (amended): writing a `finish` punch and re-parsing it recovers the
timestamp, the type, and the *escaped* form of the content (every `"`
preceded by `\`); whenever the content contains a `"` the recovered text
therefore differs from the original.  (`ts` is any space-free non-empty
timestamp string; the written record is treated as the single line it is.) -/
theorem C7_roundtrip_escaped (ts c : String) (h1 : ts.data ≠ [])
    (h2 : ∀ ch ∈ ts.data, ch ≠ ' ') (h3 : '\n' ∉ c.data) :
    scanMatch (record_event ts "finish" (some c)).data
      = some ⟨ts, "finish", some (String.mk (escQuotes c.data))⟩
    ∧ ('"' ∈ c.data → String.mk (escQuotes c.data) ≠ c) := by
  constructor
  · have d1 : ("ts=" : String).data = ['t', 's', '='] := rfl
    have d2 : (" type=" : String).data = [' ', 't', 'y', 'p', 'e', '='] := rfl
    have d4 : (" content=" : String).data = [' ', 'c', 'o', 'n', 't', 'e', 'n', 't', '='] := rfl
    have hE : (record_event ts "finish" (some c)).data
        = 't' :: 's' :: '=' :: (ts.data ++ ' ' :: 't' :: 'y' :: 'p' :: 'e' :: '=' ::
            (("finish" : String).data ++ ' ' :: 'c' :: 'o' :: 'n' :: 't' :: 'e' :: 'n' ::
              't' :: '=' :: '"' :: (escQuotes c.data ++ ['"']))) := by
      simp [record_event, data_string_mk, d1, d2, d4]
    rw [hE]
    have hM : matchAt ('t' :: 's' :: '=' :: (ts.data ++ ' ' :: 't' :: 'y' :: 'p' :: 'e' :: '=' ::
          (("finish" : String).data ++ ' ' :: 'c' :: 'o' :: 'n' :: 't' :: 'e' :: 'n' ::
            't' :: '=' :: '"' :: (escQuotes c.data ++ ['"']))))
        = some ⟨ts, "finish", some (String.mk (escQuotes c.data))⟩ := by
      simp only [matchAt]
      rw [nonspaceRun_append ts.data _ h2]
      dsimp only
      rw [if_neg h1]
      have hn : nonspaceRun ('f' :: 'i' :: 'n' :: 'i' :: 's' :: 'h' :: ' ' :: 'c' :: 'o' ::
            'n' :: 't' :: 'e' :: 'n' :: 't' :: '=' :: '"' :: (escQuotes c.data ++ ['"']))
          = (['f', 'i', 'n', 'i', 's', 'h'], ' ' :: 'c' :: 'o' :: 'n' :: 't' :: 'e' :: 'n' ::
            't' :: '=' :: '"' :: (escQuotes c.data ++ ['"'])) := by
        have hh := nonspaceRun_append ['f', 'i', 'n', 'i', 's', 'h'] ('c' :: 'o' :: 'n' :: 't' ::
          'e' :: 'n' :: 't' :: '=' :: '"' :: (escQuotes c.data ++ ['"'])) (by decide)
        simpa using hh
      have hcap : captureContent (' ' :: 'c' :: 'o' :: 'n' :: 't' :: 'e' :: 'n' :: 't' :: '=' ::
            '"' :: (escQuotes c.data ++ ['"'])) = some (String.mk (escQuotes c.data)) := by
        simp only [captureContent]
        rw [if_pos (by simp : '"' ∈ escQuotes c.data ++ ['"']), upToLast_append]
      have hfin : String.mk ['f', 'i', 'n', 'i', 's', 'h'] = "finish" := rfl
      simp [hn, hcap, hfin, string_mk_data]
    simp only [scanMatch, hM]
  · intro hq heq
    have hdata : escQuotes c.data = c.data := congrArg String.data heq
    exact escQuotes_ne hq hdata

/-- C7 witness: the amended round-trip law applied to the quote-bearing
content `a"b`. -/
theorem C7_roundtrip_escaped_witness :
    scanMatch (record_event "2024-01-15T18:00:00+09:00" "finish" (some "a\"b")).data
      = some ⟨"2024-01-15T18:00:00+09:00", "finish",
          some (String.mk (escQuotes ("a\"b" : String).data))⟩
    ∧ ('"' ∈ ("a\"b" : String).data → String.mk (escQuotes ("a\"b" : String).data) ≠ "a\"b") :=
  C7_roundtrip_escaped _ _ (by decide) (by decide) (by decide)

/-- C8 counterexample: the salary field is the `f64 → u64` *saturating* cast
of `round(hours * rate)`, not `round(hours * rate)` itself: a month totalling
−22 hours (reachable via a midnight-crossing session) at rate 1000 prints
salary 0, while `round(−22 * 1000) = −22000`. -/
theorem C8_counterexample :
    (build_sessions evMidnight).bind (fun ss => monthly_total "2024/01" ss) = some (-22)
    ∧ (summaryNums (-22) 1000).2.2 = 0
    ∧ roundHalfAway ((-22 : ℚ) * 1000) = -22000
    ∧ ((0 : ℤ) ≠ -22000) := by
  refine ⟨?_, ?_, ?_, by decide⟩
  · have hb : build_sessions evMidnight = some [⟨"2024/01/01", "23:00~01:00", none⟩] := by
      decide
    rw [hb, Option.some_bind, monthly_total_div]
    have hm : monthly_total_min "2024/01" [⟨"2024/01/01", "23:00~01:00", none⟩]
        = some (-1320) := by decide
    rw [hm]
    show some (((-1320 : ℤ) : ℚ) / 60) = some (-22)
    norm_num
  · have hdef : (summaryNums (-22 : ℚ) 1000).2.2
        = u64sat (roundHalfAway ((-22 : ℚ) * 1000)) := rfl
    rw [hdef, show ((-22 : ℚ) * 1000) = (((-22000 : ℤ)) : ℚ) from by norm_num,
      roundHalfAway_intCast]
    decide
  · rw [show ((-22 : ℚ) * 1000) = (((-22000 : ℤ)) : ℚ) from by norm_num]
    exact roundHalfAway_intCast (-22000)

/-- C8 (amended): for a nonnegative (and u64-range) month total and rate,
the row's numeric fields are exactly the claim's values — hours floored,
minutes `round((h − ⌊h⌋) · 60)` rounded half away from zero, salary
`round(h · rate)`; negative values are clamped to 0 by the `as u64` casts
(see the counterexample).  Two 2024/01 sessions totalling 9.5 hours at rate
1000 give the row `| 2024/01 | 9h30m (9.50h) | 9500 |`, and an unspecified
rate defaults to 0. -/
theorem C8_row_semantics :
    (∀ h rate : ℚ, 0 ≤ h → h ≤ 2 ^ 60 → 0 ≤ rate →
      roundHalfAway (h * rate) ≤ 2 ^ 64 - 1 →
      ((summaryNums h rate).1 : ℤ) = ⌊h⌋
      ∧ ((summaryNums h rate).2.1 : ℤ) = roundHalfAway ((h - (⌊h⌋ : ℚ)) * 60)
      ∧ ((summaryNums h rate).2.2 : ℤ) = roundHalfAway (h * rate))
    ∧ (build_sessions evNineHalf).bind (fun ss => monthly_total "2024/01" ss) = some (19 / 2)
    ∧ summary_row "2024/01" (19 / 2) 1000 = "| 2024/01 | 9h30m (9.50h) | 9500 |"
    ∧ rateOrZero none = 0 := by
  refine ⟨?_, ?_, ?_, rfl⟩
  · intro h rate h0 hB hr hsal
    have hfl0 : 0 ≤ ⌊h⌋ := Int.floor_nonneg.mpr h0
    have hflB : ⌊h⌋ ≤ 2 ^ 64 - 1 := by
      have hle : ⌊h⌋ ≤ ⌊((2 : ℚ) ^ 60)⌋ := Int.floor_le_floor hB
      rw [show ((2 : ℚ) ^ 60) = (((2 ^ 60 : ℤ)) : ℚ) from by norm_num,
        Int.floor_intCast] at hle
      have hb : (2 : ℤ) ^ 60 ≤ 2 ^ 64 - 1 := by norm_num
      omega
    have hu1 : ((u64sat (Rat.floor h)) : ℤ) = ⌊h⌋ := by
      rw [ratFloor_intFloor]
      exact u64sat_eq hfl0 hflB
    have part1 : ((summaryNums h rate).1 : ℤ) = ⌊h⌋ := by
      rw [show (summaryNums h rate).1 = u64sat (Rat.floor h) from rfl]
      exact hu1
    have hcast : ((u64sat (Rat.floor h) : ℕ) : ℚ) = ((⌊h⌋ : ℤ) : ℚ) := by
      exact_mod_cast hu1
    have hfr0 : 0 ≤ h - (⌊h⌋ : ℚ) := sub_nonneg.mpr (Int.floor_le h)
    have hfr1 : h - (⌊h⌋ : ℚ) < 1 := by
      have := Int.lt_floor_add_one h
      linarith
    have hm0 : 0 ≤ (h - (⌊h⌋ : ℚ)) * 60 := mul_nonneg hfr0 (by norm_num)
    have hmB : (h - (⌊h⌋ : ℚ)) * 60 < ((60 : ℤ) : ℚ) := by
      have := mul_lt_mul_of_pos_right hfr1 (show (0 : ℚ) < 60 by norm_num)
      push_cast
      linarith
    have hr0 : 0 ≤ roundHalfAway ((h - (⌊h⌋ : ℚ)) * 60) := roundHalfAway_nonneg hm0
    have hrB : roundHalfAway ((h - (⌊h⌋ : ℚ)) * 60) ≤ 60 := roundHalfAway_le_of_lt hm0 hmB
    have part2 : ((summaryNums h rate).2.1 : ℤ) = roundHalfAway ((h - (⌊h⌋ : ℚ)) * 60) := by
      rw [show (summaryNums h rate).2.1
          = u64sat (roundHalfAway ((h - ((u64sat (Rat.floor h) : ℕ) : ℚ)) * 60)) from rfl]
      rw [hcast]
      exact u64sat_eq hr0 (le_trans hrB (by norm_num))
    have part3 : ((summaryNums h rate).2.2 : ℤ) = roundHalfAway (h * rate) := by
      rw [show (summaryNums h rate).2.2 = u64sat (roundHalfAway (h * rate)) from rfl]
      exact u64sat_eq (roundHalfAway_nonneg (mul_nonneg h0 hr)) hsal
    exact ⟨part1, part2, part3⟩
  · have hb : build_sessions evNineHalf
        = some [⟨"2024/01/15", "09:00~13:30", none⟩, ⟨"2024/01/16", "09:00~14:00", none⟩] := by
      decide
    rw [hb, Option.some_bind, monthly_total_div]
    have hm : monthly_total_min "2024/01"
        [⟨"2024/01/15", "09:00~13:30", none⟩, ⟨"2024/01/16", "09:00~14:00", none⟩]
        = some 570 := by decide
    rw [hm]
    show some (((570 : ℤ) : ℚ) / 60) = some (19 / 2)
    norm_num
  · have f1 : Rat.floor ((19 : ℚ) / 2) = 9 := by
      rw [ratFloor_intFloor]
      exact Int.floor_eq_iff.mpr ⟨by norm_num, by norm_num⟩
    have hsn : summaryNums ((19 : ℚ) / 2) 1000 = (9, 30, 9500) := by
      rw [show summaryNums ((19 : ℚ) / 2) 1000
          = (u64sat (Rat.floor ((19 : ℚ) / 2)),
             u64sat (roundHalfAway ((((19 : ℚ) / 2)
               - ((u64sat (Rat.floor ((19 : ℚ) / 2)) : ℕ) : ℚ)) * 60)),
             u64sat (roundHalfAway (((19 : ℚ) / 2) * 1000))) from rfl]
      rw [f1, show u64sat (9 : ℤ) = 9 from by decide]
      rw [show (((19 : ℚ) / 2) - ((9 : ℕ) : ℚ)) * 60 = (((30 : ℤ)) : ℚ) from by push_cast; ring_nf]
      rw [roundHalfAway_intCast, show u64sat (30 : ℤ) = 30 from by decide]
      rw [show (((19 : ℚ) / 2) * 1000) = (((9500 : ℤ)) : ℚ) from by norm_num]
      rw [roundHalfAway_intCast, show u64sat (9500 : ℤ) = 9500 from by decide]
    have hdf : decFmt2 ((19 : ℚ) / 2) = ['9', '.', '5', '0'] := by
      rw [show decFmt2 ((19 : ℚ) / 2)
          = ((if roundHalfAway (((19 : ℚ) / 2) * 100) < 0 then ['-'] else []) ++
              (Nat.repr ((roundHalfAway (((19 : ℚ) / 2) * 100)).natAbs / 100)).data ++
              '.' :: pad2 ((roundHalfAway (((19 : ℚ) / 2) * 100)).natAbs % 100)) from rfl]
      rw [show (((19 : ℚ) / 2) * 100) = (((950 : ℤ)) : ℚ) from by norm_num,
        roundHalfAway_intCast]
      decide
    unfold summary_row
    rw [hsn, hdf]
    decide

/-- C8 witness: the amended row law applied to 9.5 hours at rate 1000. -/
theorem C8_row_semantics_witness :
    ((summaryNums ((19 : ℚ) / 2) 1000).1 : ℤ) = ⌊((19 : ℚ) / 2)⌋
    ∧ ((summaryNums ((19 : ℚ) / 2) 1000).2.1 : ℤ)
        = roundHalfAway ((((19 : ℚ) / 2) - ((⌊((19 : ℚ) / 2)⌋ : ℤ) : ℚ)) * 60)
    ∧ ((summaryNums ((19 : ℚ) / 2) 1000).2.2 : ℤ) = roundHalfAway (((19 : ℚ) / 2) * 1000) :=
  C8_row_semantics.1 ((19 : ℚ) / 2) 1000 (by norm_num) (by norm_num) (by norm_num)
    (by rw [show (((19 : ℚ) / 2) * 1000) = (((9500 : ℤ)) : ℚ) from by norm_num,
          roundHalfAway_intCast]
        norm_num)
